import Mathlib

/-!
Verification of the bytecode freezing packer
(torch/csrc/deploy/interpreter/freeze.py).

The Python source is shallowly embedded: the filesystem is a tree of
entries whose child order is the order the OS directory iteration
(iterdir) yields; the external compiler (compile + marshal.dumps) is an
abstract function parameter returning either a bytecode blob or an
error; the Freezer's mutable state (frozen_modules catalog, indent
counter) is threaded explicitly; fallible steps live in Except.
-/

namespace Freeze

/-- The index of the last dot of a file name, as computed by Python
str.rfind, provided that dot is neither the first nor the last
character of the name; none otherwise. -/
def pySplitIdx (l : List Char) : Option Nat :=
  let r := l.reverse.indexOf '.'
  if r < l.length then
    let i := l.length - 1 - r
    if 0 < i ∧ i < l.length - 1 then some i else none
  else none

/-- Python pathlib suffix of a file name: the substring from the last
dot onward, provided that dot is neither the first nor past the last
character; otherwise the empty string. -/
def pySuffix (s : String) : String :=
  match pySplitIdx s.toList with
  | some i => ⟨s.toList.drop i⟩
  | none => ""

/-- Python pathlib stem of a file name: the name with pySuffix removed. -/
def pyStem (s : String) : String :=
  match pySplitIdx s.toList with
  | some i => ⟨s.toList.take i⟩
  | none => s

/-- Name of the last path segment, empty for the root path, mirroring
pathlib where the name of the empty relative path is the empty string. -/
def lastNameD (l : List String) : String := l.getLastD ""

/-- DENY_LIST from freeze.py, duplicates kept as in the source. -/
def DENY_LIST : List String :=
  ["dbm", "curses", "tkinter", "tkinter", "test", "tests", "idle_test",
   "__phello__.foo.py", "_bootstrap.py", "_bootstrap_external.py"]

/-- NUM_BYTECODE_FILES from freeze.py. -/
def NUM_BYTECODE_FILES : Nat := 5

/-- The FrozenModule dataclass. Bytecode is a byte list. -/
structure FrozenModule where
  module_name : String
  c_name : String
  size : Int
  bytecode : List Nat
deriving DecidableEq, Repr

/-- The mutable fields of the Freezer object. -/
structure FreezerState where
  frozen_modules : List FrozenModule
  indent : Nat
deriving DecidableEq, Repr

/-- The external compiler: compile(source, path) followed by
marshal.dumps, returning a blob or failing (syntax error). -/
abbrev Compiler := String → List String → Except String (List Nat)

/-- The blob a compiler yields on success, empty on failure; used only
to state results under the hypothesis that compilation succeeded. -/
def okBytes (c : Compiler) (content : String) (rp : List String) : List Nat :=
  match c content rp with
  | .ok b => b
  | .error _ => []

/-- Python str.join with separator double underscore,
as in module_mangled_name. -/
def mangle : List String → String
  | [] => ""
  | [a] => a
  | a :: b :: rest => a ++ "__" ++ mangle (b :: rest)

/-- Python str.join with separator dot, as in the module name. -/
def dotJoin : List String → String
  | [] => ""
  | [a] => a
  | a :: b :: rest => a ++ "." ++ dotJoin (b :: rest)

/-- Freezer.get_module_qualname on the path relative to the top package
root's parent, as a segment list.  For a package marker file the last
segment is the containing directory's name (pathlib parent.name, empty
for the root path) and the leading segments are the containing
directory's parent's parts; otherwise the relative path's segments with
the suffix stripped from the file name. -/
def get_module_qualname (rp : List String) : List String :=
  if lastNameD rp = "__init__.py" then
    (rp.dropLast).dropLast ++ [lastNameD rp.dropLast]
  else
    rp.dropLast ++ [pyStem (lastNameD rp)]

/-- The record Freezer.compile_file appends for an accepted file with
relative path rp and source text content, assuming compilation
succeeds. -/
def recordOf (c : Compiler) (rp : List String) (content : String) : FrozenModule :=
  let qual := get_module_qualname rp
  let b := okBytes c content rp
  { module_name := dotJoin qual
    c_name := "M_" ++ mangle qual
    size := if lastNameD rp = "__init__.py" then -(b.length : Int) else (b.length : Int)
    bytecode := b }

mutual
/-- A filesystem entry: a file with source text, or a directory whose
children appear in directory-iteration order. -/
inductive Entry where
  | file (name content : String)
  | dir (name : String) (children : EntryList)

/-- Children of a directory, in the order iterdir yields them. -/
inductive EntryList where
  | nil
  | cons (head : Entry) (tail : EntryList)
end

/-- The name of an entry (pathlib .name). -/
def entryName : Entry → String
  | .file n _ => n
  | .dir n _ => n

/-- Whether a directory listing contains an entry named exactly
__init__.py: the is_package_dir test of compile_package, and the
driver's Path.exists(path / init marker) test. -/
def hasInitMarker : EntryList → Bool
  | .nil => false
  | .cons e es => entryName e == "__init__.py" || hasInitMarker es

/-- The indent_msg decorator: increment the indent counter, run the
body, decrement on normal return; an exception propagates without the
decrement, as in the Python decorator. -/
def indentWrap (f : FreezerState → Except String FreezerState)
    (st : FreezerState) : Except String FreezerState :=
  match f { st with indent := st.indent + 1 } with
  | .ok st2 => .ok { st2 with indent := st2.indent - 1 }
  | .error e => .error e

/-- Freezer.compile_file: skip non-.py suffixes, skip deny-listed
names, otherwise compile and append a FrozenModule whose size is
negated for the package marker file.  pre is the path of the containing
directory relative to the top package root's parent. -/
def compile_file (c : Compiler) (pre : List String) (n content : String)
    (st : FreezerState) : Except String FreezerState :=
  indentWrap (fun st =>
    if pySuffix n ≠ ".py" then .ok st
    else if n ∈ DENY_LIST then .ok st
    else
      let qual := get_module_qualname (pre ++ [n])
      let cname := "M_" ++ mangle qual
      match c content (pre ++ [n]) with
      | .error e => .error e
      | .ok bytecode =>
        let size : Int :=
          if n = "__init__.py" then -(bytecode.length : Int)
          else (bytecode.length : Int)
        .ok { st with
              frozen_modules :=
                st.frozen_modules ++ [⟨dotJoin qual, cname, size, bytecode⟩] }) st

mutual
/-- Freezer.compile_path: dispatch on directory vs file.  For a
directory the compile_package body is inlined: the indent_msg wrapper
around the deny-list test, the is_package_dir test, and recursion over
the children in iteration order. -/
def compile_path (c : Compiler) (pre : List String) (st : FreezerState) :
    Entry → Except String FreezerState
  | .file n content => compile_file c pre n content st
  | .dir n children =>
    indentWrap (fun st1 =>
      if n ∈ DENY_LIST then .ok st1
      else if hasInitMarker children = false then .ok st1
      else compile_children c (pre ++ [n]) st1 children) st

/-- The loop of compile_package over the children of a package dir. -/
def compile_children (c : Compiler) (pre : List String) (st : FreezerState) :
    EntryList → Except String FreezerState
  | .nil => .ok st
  | .cons e es =>
    match compile_path c pre st e with
    | .ok st2 => compile_children c pre st2 es
    | .error msg => .error msg
end

/-- Freezer.compile_package as a standalone function, identical to the
directory branch of compile_path. -/
def compile_package (c : Compiler) (pre : List String) (n : String)
    (children : EntryList) (st : FreezerState) : Except String FreezerState :=
  indentWrap (fun st1 =>
    if n ∈ DENY_LIST then .ok st1
    else if hasInitMarker children = false then .ok st1
    else compile_children c (pre ++ [n]) st1 children) st

theorem compile_path_dir (c : Compiler) (pre : List String) (st : FreezerState)
    (n : String) (children : EntryList) :
    compile_path c pre st (.dir n children) = compile_package c pre n children st := rfl

mutual
/-- The accepted files below an entry: the relative path and source
text of every file the traversal compiles, in traversal order.  A file
is accepted when its suffix is .py and its name is not deny-listed and
every directory on the way down is a non-deny-listed package
directory. -/
def accepted_path (pre : List String) : Entry → List (List String × String)
  | .file n content =>
    if pySuffix n ≠ ".py" then []
    else if n ∈ DENY_LIST then []
    else [(pre ++ [n], content)]
  | .dir n children =>
    if n ∈ DENY_LIST then []
    else if hasInitMarker children = false then []
    else accepted_children (pre ++ [n]) children

/-- Accepted files below each child of a package directory,
concatenated in iteration order. -/
def accepted_children (pre : List String) : EntryList → List (List String × String)
  | .nil => []
  | .cons e es => accepted_path pre e ++ accepted_children pre es
end

/-- Directory listing as a plain list, in iteration order. -/
def EntryList.toList : EntryList → List Entry
  | .nil => []
  | .cons e es => e :: EntryList.toList es

/-- Insert an entry into a name-sorted list of entries. -/
def insertByName (e : Entry) : List Entry → List Entry
  | [] => [e]
  | x :: xs =>
    if entryName e ≤ entryName x then e :: x :: xs else x :: insertByName e xs

/-- Python sorted(path.glob("*")): the direct children in lexicographic
order of name. -/
def sortByName (l : EntryList) : List Entry := l.toList.foldr insertByName []

/-- The driver's inner loop over the sorted children of a top-level
container directory: each child becomes its own top package root, so
its relative-path accumulator starts empty. -/
def run_mods (c : Compiler) (st : FreezerState) :
    List Entry → Except String FreezerState
  | [] => .ok st
  | m :: rest =>
    match compile_path c [] st m with
    | .ok st2 => run_mods c st2 rest
    | .error msg => .error msg

/-- One iteration of the driver's loop over args.paths: a directory
without the package marker is a container whose sorted children are
each compiled as their own top package root; anything else is compiled
as its own top package root. -/
def driver_one (c : Compiler) (st : FreezerState) (p : Entry) :
    Except String FreezerState :=
  match p with
  | .dir _ children =>
    if hasInitMarker children = false then run_mods c st (sortByName children)
    else compile_path c [] st p
  | .file _ _ => compile_path c [] st p

/-- The driver's loop over args.paths, starting from a fresh Freezer. -/
def run_roots (c : Compiler) (st : FreezerState) :
    List Entry → Except String FreezerState
  | [] => .ok st
  | p :: rest =>
    match driver_one c st p with
    | .ok st2 => run_roots c st2 rest
    | .error msg => .error msg

/-- Accepted files of one driver iteration. -/
def accepted_one (p : Entry) : List (List String × String) :=
  match p with
  | .dir _ children =>
    if hasInitMarker children = false then
      ((sortByName children).map (accepted_path [])).flatten
    else accepted_path [] p
  | .file _ _ => accepted_path [] p

/-- Accepted files of the whole run, in catalog order. -/
def accepted_run (roots : List Entry) : List (List String × String) :=
  (roots.map accepted_one).flatten

/-- The body of Freezer.write_bytecode: itertools.cycle hands the open
shard files out round-robin, so the record at cursor position pos is
appended to shard pos and the cursor advances modulo the shard
count. -/
def write_bytecode_loop (pos : Nat) (mods : List FrozenModule)
    (files : List (List FrozenModule)) : List (List FrozenModule) :=
  match mods with
  | [] => files
  | m :: rest =>
    write_bytecode_loop ((pos + 1) % NUM_BYTECODE_FILES) rest
      (files.set pos (files.getD pos [] ++ [m]))

/-- Freezer.write_bytecode: distribute the catalog over
NUM_BYTECODE_FILES shard files; the returned list holds, per shard
file, the records written to it in order. -/
def write_bytecode (mods : List FrozenModule) : List (List FrozenModule) :=
  write_bytecode_loop 0 mods (List.replicate NUM_BYTECODE_FILES [])

/-- One row of the manifest table in main.c: a quoted module-name
literal and a symbol reference are non-null, the sentinel row from
MAIN_SUFFIX has null name, null symbol and size 0. -/
structure ManifestEntry where
  name : Option String
  symbol : Option String
  size : Int
deriving DecidableEq, Repr

/-- The manifest row written for one catalog record. -/
def mkEntry (m : FrozenModule) : ManifestEntry :=
  ⟨some m.module_name, some m.c_name, m.size⟩

/-- The sentinel row emitted by MAIN_SUFFIX. -/
def sentinelEntry : ManifestEntry := ⟨none, none, 0⟩

/-- Whether a manifest row has all fields zero or null. -/
def isNullEntry (e : ManifestEntry) : Bool :=
  e.name == none && e.symbol == none && e.size == 0

/-- Freezer.write_main: the extern declarations (one per catalog
record), the primary table rows in catalog order followed by the
sentinel, and, iff oss, a second table holding only the sentinel. -/
def write_main (mods : List FrozenModule) (oss : Bool) :
    List String × List ManifestEntry × Option (List ManifestEntry) :=
  (mods.map (fun m => m.c_name),
   mods.map mkEntry ++ [sentinelEntry],
   if oss then some [sentinelEntry] else none)

/-- The whole script after argument parsing: run the driver loop over
the root paths from a fresh Freezer, then, only if no compilation
failed, emit the shard files and main.c. -/
def freeze_run (c : Compiler) (roots : List Entry) (oss : Bool) :
    Except String
      (List (List FrozenModule) ×
       (List String × List ManifestEntry × Option (List ManifestEntry))) :=
  match run_roots c ⟨[], 0⟩ roots with
  | .ok st => .ok (write_bytecode st.frozen_modules, write_main st.frozen_modules oss)
  | .error msg => .error msg

/-! ### String and path helper lemmas -/

theorem mk_toList (s : String) : (⟨s.toList⟩ : String) = s := rfl

theorem mk_append_mk (a b : List Char) : (⟨a⟩ : String) ++ ⟨b⟩ = ⟨a ++ b⟩ := rfl

/-- A name whose pathlib suffix is .py is its stem followed by .py. -/
theorem stem_append_py (s : String) (h : pySuffix s = ".py") :
    s = pyStem s ++ ".py" := by
  unfold pySuffix at h
  unfold pyStem
  cases hidx : pySplitIdx s.toList with
  | none =>
    rw [hidx] at h
    replace h : ("" : String) = ".py" := h
    exact absurd h (by decide)
  | some i =>
    rw [hidx] at h
    rw [← h, mk_append_mk, List.take_append_drop]
    exact (mk_toList s).symm

/-- Distinct names with suffix .py have distinct stems. -/
theorem stem_inj (n1 n2 : String) (h1 : pySuffix n1 = ".py")
    (h2 : pySuffix n2 = ".py") (hne : n1 ≠ n2) : pyStem n1 ≠ pyStem n2 := by
  intro he
  exact hne (by rw [stem_append_py n1 h1, stem_append_py n2 h2, he])

theorem str_append_cancel_left (a b c : String) (h : a ++ b = a ++ c) : b = c := by
  apply String.ext
  have hd : a.data ++ b.data = a.data ++ c.data := congrArg String.data h
  exact List.append_cancel_left hd

theorem mangle_concat (l : List String) (h : l ≠ []) (s : String) :
    mangle (l ++ [s]) = mangle l ++ "__" ++ s := by
  induction l with
  | nil => exact absurd rfl h
  | cons a t ih =>
    cases t with
    | nil => rfl
    | cons b t2 =>
      calc mangle ((a :: b :: t2) ++ [s])
          = a ++ "__" ++ mangle ((b :: t2) ++ [s]) := rfl
        _ = a ++ "__" ++ (mangle (b :: t2) ++ "__" ++ s) := by
              rw [ih (by simp)]
        _ = mangle (a :: b :: t2) ++ "__" ++ s := by
              show a ++ "__" ++ (mangle (b :: t2) ++ "__" ++ s)
                 = (a ++ "__" ++ mangle (b :: t2)) ++ "__" ++ s
              simp [String.append_assoc]

theorem dropLast_append_getLastD (l : List String) (h : l ≠ []) :
    ∀ d, l.dropLast ++ [l.getLastD d] = l := by
  induction l with
  | nil => exact absurd rfl h
  | cons a t ih =>
    intro d
    cases t with
    | nil => rfl
    | cons b t2 =>
      have h2 := ih (by simp) a
      show a :: ((b :: t2).dropLast ++ [(b :: t2).getLastD a]) = a :: b :: t2
      rw [h2]

theorem lastNameD_concat (pre : List String) (n : String) :
    lastNameD (pre ++ [n]) = n := List.getLastD_concat _ _ _

/-- get_module_qualname on a package marker file: the containing
directory's segments. -/
theorem qual_marker (pre : List String) (h : pre ≠ []) :
    get_module_qualname (pre ++ ["__init__.py"]) = pre := by
  unfold get_module_qualname
  rw [lastNameD_concat, if_pos rfl, List.dropLast_concat]
  exact dropLast_append_getLastD pre h ""

/-- get_module_qualname on any other file: the directory's segments
followed by the stem. -/
theorem qual_plain (pre : List String) (n : String) (h : n ≠ "__init__.py") :
    get_module_qualname (pre ++ [n]) = pre ++ [pyStem n] := by
  unfold get_module_qualname
  rw [lastNameD_concat, if_neg h, List.dropLast_concat]

/-! ### Catalog characterization -/

/-- Every listed file compiles successfully. -/
def allOk (c : Compiler) (fs : List (List String × String)) : Prop :=
  ∀ f ∈ fs, (c f.2 f.1).isOk = true

theorem allOk_append (c : Compiler) (a b : List (List String × String)) :
    allOk c (a ++ b) ↔ allOk c a ∧ allOk c b := by
  constructor
  · intro h
    exact ⟨fun f hf => h f (List.mem_append_left _ hf),
           fun f hf => h f (List.mem_append_right _ hf)⟩
  · rintro ⟨ha, hb⟩ f hf
    rcases List.mem_append.mp hf with h' | h'
    exacts [ha f h', hb f h']

/-- compile_file appends exactly the records of its accepted files
(none, or one) and restores the indent counter, provided compilation
succeeds. -/
theorem compile_file_ok (c : Compiler) (pre : List String) (n content : String)
    (st : FreezerState)
    (h : allOk c (accepted_path pre (.file n content))) :
    compile_file c pre n content st =
      .ok ⟨st.frozen_modules ++
            (accepted_path pre (.file n content)).map (fun f => recordOf c f.1 f.2),
           st.indent⟩ := by
  by_cases hs : pySuffix n = ".py"
  · by_cases hd : n ∈ DENY_LIST
    · simp [compile_file, indentWrap, accepted_path, hs, hd]
    · have hmem : (pre ++ [n], content) ∈ accepted_path pre (Entry.file n content) := by
        simp [accepted_path, hs, hd]
      have hok := h _ hmem
      obtain ⟨b, hb⟩ : ∃ b, c content (pre ++ [n]) = .ok b := by
        cases hcb : c content (pre ++ [n]) with
        | ok b => exact ⟨b, rfl⟩
        | error msg => rw [hcb] at hok; exact absurd hok (by simp [Except.isOk, Except.toBool])
      simp [compile_file, indentWrap, accepted_path, hs, hd, hb, recordOf, okBytes,
            lastNameD_concat]
  · simp [compile_file, indentWrap, accepted_path, hs]

mutual
/-- compile_path appends exactly the records of the accepted files
below the entry and restores the indent counter, provided every such
file compiles. -/
theorem compile_path_ok (c : Compiler) (pre : List String) (st : FreezerState)
    (e : Entry) (h : allOk c (accepted_path pre e)) :
    compile_path c pre st e =
      .ok ⟨st.frozen_modules ++
            (accepted_path pre e).map (fun f => recordOf c f.1 f.2), st.indent⟩ := by
  cases e with
  | file n content => exact compile_file_ok c pre n content st h
  | dir n children =>
    by_cases hd : n ∈ DENY_LIST
    · simp [compile_path, indentWrap, accepted_path, hd]
    · by_cases hm : hasInitMarker children = false
      · simp [compile_path, indentWrap, accepted_path, hd, hm]
      · have h' : allOk c (accepted_children (pre ++ [n]) children) := by
          simpa [accepted_path, hd, hm] using h
        have hrec := compile_children_ok c (pre ++ [n])
          { st with indent := st.indent + 1 } children h'
        simp [compile_path, indentWrap, accepted_path, hd, hm, hrec]

/-- compile_children appends exactly the records of the accepted files
below the listed entries, in order, provided every such file
compiles. -/
theorem compile_children_ok (c : Compiler) (pre : List String) (st : FreezerState)
    (l : EntryList) (h : allOk c (accepted_children pre l)) :
    compile_children c pre st l =
      .ok ⟨st.frozen_modules ++
            (accepted_children pre l).map (fun f => recordOf c f.1 f.2), st.indent⟩ := by
  cases l with
  | nil => simp [compile_children, accepted_children]
  | cons e es =>
    have hsplit := (allOk_append c _ _).mp (by simpa [accepted_children] using h)
    have h1 := compile_path_ok c pre st e hsplit.1
    have h2 := compile_children_ok c pre
      ⟨st.frozen_modules ++ (accepted_path pre e).map (fun f => recordOf c f.1 f.2),
       st.indent⟩ es hsplit.2
    simp [compile_children, h1, h2, accepted_children, List.append_assoc]
end

mutual
/-- If some accepted file below the entry fails to compile, compile_path
propagates the failure as an error. -/
theorem compile_path_err (c : Compiler) (pre : List String) (st : FreezerState)
    (e : Entry) (h : ¬ allOk c (accepted_path pre e)) :
    ∃ msg, compile_path c pre st e = .error msg := by
  cases e with
  | file n content =>
    by_cases hs : pySuffix n = ".py"
    · by_cases hd : n ∈ DENY_LIST
      · refine absurd ?_ h
        intro f hf
        simp [accepted_path, hs, hd] at hf
      · cases hcb : c content (pre ++ [n]) with
        | ok b =>
          refine absurd ?_ h
          intro f hf
          simp [accepted_path, hs, hd] at hf
          rw [hf, hcb]
          rfl
        | error msg =>
          exact ⟨msg, by simp [compile_path, compile_file, indentWrap, hs, hd, hcb]⟩
    · refine absurd ?_ h
      intro f hf
      simp [accepted_path, hs] at hf
  | dir n children =>
    by_cases hd : n ∈ DENY_LIST
    · refine absurd ?_ h
      intro f hf
      simp [accepted_path, hd] at hf
    · by_cases hm : hasInitMarker children = false
      · refine absurd ?_ h
        intro f hf
        simp [accepted_path, hd, hm] at hf
      · have h' : ¬ allOk c (accepted_children (pre ++ [n]) children) := by
          intro hh
          exact h (by simpa [accepted_path, hd, hm] using hh)
        obtain ⟨msg, hmsg⟩ := compile_children_err c (pre ++ [n])
          { st with indent := st.indent + 1 } children h'
        exact ⟨msg, by simp [compile_path, indentWrap, hd, hm, hmsg]⟩

/-- If some accepted file below the listed entries fails to compile,
compile_children propagates the failure as an error. -/
theorem compile_children_err (c : Compiler) (pre : List String) (st : FreezerState)
    (l : EntryList) (h : ¬ allOk c (accepted_children pre l)) :
    ∃ msg, compile_children c pre st l = .error msg := by
  cases l with
  | nil =>
    refine absurd ?_ h
    intro f hf
    simp [accepted_children] at hf
  | cons e es =>
    by_cases h1 : allOk c (accepted_path pre e)
    · have h2 : ¬ allOk c (accepted_children pre es) := by
        intro hh
        refine h ?_
        rw [show accepted_children pre (.cons e es)
              = accepted_path pre e ++ accepted_children pre es from rfl]
        exact (allOk_append c _ _).mpr ⟨h1, hh⟩
      have hok := compile_path_ok c pre st e h1
      obtain ⟨msg, hmsg⟩ := compile_children_err c pre
        ⟨st.frozen_modules ++ (accepted_path pre e).map (fun f => recordOf c f.1 f.2),
         st.indent⟩ es h2
      exact ⟨msg, by simp [compile_children, hok, hmsg]⟩
    · obtain ⟨msg, hmsg⟩ := compile_path_err c pre st e h1
      exact ⟨msg, by simp [compile_children, hmsg]⟩
end

/-- run_mods appends exactly the records of the accepted files below
the listed top-level modules, in order, provided every such file
compiles. -/
theorem run_mods_ok (c : Compiler) (l : List Entry) :
    ∀ st : FreezerState, allOk c ((l.map (accepted_path [])).flatten) →
    run_mods c st l =
      .ok ⟨st.frozen_modules ++
            ((l.map (accepted_path [])).flatten).map (fun f => recordOf c f.1 f.2),
           st.indent⟩ := by
  induction l with
  | nil => intro st h; simp [run_mods]
  | cons m rest ih =>
    intro st h
    have hsplit := (allOk_append c _ _).mp (by simpa using h)
    have h1 := compile_path_ok c [] st m hsplit.1
    have h2 := ih ⟨st.frozen_modules ++
      (accepted_path [] m).map (fun f => recordOf c f.1 f.2), st.indent⟩ hsplit.2
    simp [run_mods, h1, h2, List.append_assoc]

/-- If some accepted file below the listed top-level modules fails to
compile, run_mods propagates the failure. -/
theorem run_mods_err (c : Compiler) (l : List Entry) :
    ∀ st : FreezerState, ¬ allOk c ((l.map (accepted_path [])).flatten) →
    ∃ msg, run_mods c st l = .error msg := by
  induction l with
  | nil =>
    intro st h
    refine absurd ?_ h
    intro f hf
    simp at hf
  | cons m rest ih =>
    intro st h
    by_cases h1 : allOk c (accepted_path [] m)
    · have h2 : ¬ allOk c ((rest.map (accepted_path [])).flatten) := by
        intro hh
        refine h ?_
        rw [show ((m :: rest).map (accepted_path [])).flatten
              = accepted_path [] m ++ (rest.map (accepted_path [])).flatten by simp]
        exact (allOk_append c _ _).mpr ⟨h1, hh⟩
      have hok := compile_path_ok c [] st m h1
      obtain ⟨msg, hmsg⟩ := ih ⟨st.frozen_modules ++
        (accepted_path [] m).map (fun f => recordOf c f.1 f.2), st.indent⟩ h2
      exact ⟨msg, by simp [run_mods, hok, hmsg]⟩
    · obtain ⟨msg, hmsg⟩ := compile_path_err c [] st m h1
      exact ⟨msg, by simp [run_mods, hmsg]⟩

/-- One driver iteration appends exactly the records of its accepted
files, provided every such file compiles. -/
theorem driver_one_ok (c : Compiler) (st : FreezerState) (p : Entry)
    (h : allOk c (accepted_one p)) :
    driver_one c st p =
      .ok ⟨st.frozen_modules ++ (accepted_one p).map (fun f => recordOf c f.1 f.2),
           st.indent⟩ := by
  cases p with
  | file n content => exact compile_path_ok c [] st (.file n content) h
  | dir n children =>
    by_cases hm : hasInitMarker children = false
    · have h' : allOk c (((sortByName children).map (accepted_path [])).flatten) := by
        simpa [accepted_one, hm] using h
      have := run_mods_ok c (sortByName children) st h'
      simpa [driver_one, accepted_one, hm] using this
    · have h' : allOk c (accepted_path [] (.dir n children)) := by
        simpa [accepted_one, hm] using h
      have := compile_path_ok c [] st (.dir n children) h'
      simpa [driver_one, accepted_one, hm] using this

/-- If some accepted file of one driver iteration fails to compile, the
iteration propagates the failure. -/
theorem driver_one_err (c : Compiler) (st : FreezerState) (p : Entry)
    (h : ¬ allOk c (accepted_one p)) :
    ∃ msg, driver_one c st p = .error msg := by
  cases p with
  | file n content => exact compile_path_err c [] st (.file n content) h
  | dir n children =>
    by_cases hm : hasInitMarker children = false
    · have h' : ¬ allOk c (((sortByName children).map (accepted_path [])).flatten) := by
        intro hh
        exact h (by simpa [accepted_one, hm] using hh)
      obtain ⟨msg, hmsg⟩ := run_mods_err c (sortByName children) st h'
      exact ⟨msg, by simp [driver_one, hm, hmsg]⟩
    · have h' : ¬ allOk c (accepted_path [] (.dir n children)) := by
        intro hh
        exact h (by simpa [accepted_one, hm] using hh)
      obtain ⟨msg, hmsg⟩ := compile_path_err c [] st (.dir n children) h'
      exact ⟨msg, by simp [driver_one, hm, hmsg]⟩

/-- The driver loop appends exactly the records of the run's accepted
files, in order, provided every accepted file compiles. -/
theorem run_roots_ok (c : Compiler) (roots : List Entry) :
    ∀ st : FreezerState, allOk c (accepted_run roots) →
    run_roots c st roots =
      .ok ⟨st.frozen_modules ++ (accepted_run roots).map (fun f => recordOf c f.1 f.2),
           st.indent⟩ := by
  induction roots with
  | nil => intro st h; simp [run_roots, accepted_run]
  | cons p rest ih =>
    intro st h
    have hsplit := (allOk_append c _ _).mp (by simpa [accepted_run] using h)
    have h1 := driver_one_ok c st p hsplit.1
    have h2 := ih ⟨st.frozen_modules ++
      (accepted_one p).map (fun f => recordOf c f.1 f.2), st.indent⟩
      (by simpa [accepted_run] using hsplit.2)
    simp [run_roots, h1, h2, accepted_run, List.append_assoc]

/-- If some accepted file of the run fails to compile, the driver loop
propagates the failure. -/
theorem run_roots_err (c : Compiler) (roots : List Entry) :
    ∀ st : FreezerState, ¬ allOk c (accepted_run roots) →
    ∃ msg, run_roots c st roots = .error msg := by
  induction roots with
  | nil =>
    intro st h
    refine absurd ?_ h
    intro f hf
    simp [accepted_run] at hf
  | cons p rest ih =>
    intro st h
    by_cases h1 : allOk c (accepted_one p)
    · have h2 : ¬ allOk c (accepted_run rest) := by
        intro hh
        refine h ?_
        rw [show accepted_run (p :: rest) = accepted_one p ++ accepted_run rest by
              simp [accepted_run]]
        exact (allOk_append c _ _).mpr ⟨h1, hh⟩
      have hok := driver_one_ok c st p h1
      obtain ⟨msg, hmsg⟩ := ih ⟨st.frozen_modules ++
        (accepted_one p).map (fun f => recordOf c f.1 f.2), st.indent⟩ h2
      exact ⟨msg, by simp [run_roots, hok, hmsg]⟩
    · obtain ⟨msg, hmsg⟩ := driver_one_err c st p h1
      exact ⟨msg, by simp [run_roots, hmsg]⟩

/-! ### Sharding lemmas -/

/-- Cursor invariant of the cycle iterator: starting with the cursor at
the global index n, each shard j ends as its current content followed
by the remaining records whose global index is congruent to j. -/
theorem write_bytecode_loop_char (mods : List FrozenModule) :
    ∀ (n : Nat) (files : List (List FrozenModule)),
    files.length = NUM_BYTECODE_FILES →
    write_bytecode_loop (n % NUM_BYTECODE_FILES) mods files =
      (List.range NUM_BYTECODE_FILES).map (fun j =>
        files.getD j [] ++
          ((mods.enumFrom n).filter
            (fun p => p.1 % NUM_BYTECODE_FILES == j)).map Prod.snd) := by
  induction mods with
  | nil =>
    intro n files hf
    simp only [write_bytecode_loop, List.enumFrom_nil, List.filter_nil, List.map_nil,
      List.append_nil]
    apply List.ext_getElem
    · simp [hf]
    · intro i h1 h2
      simp only [List.getElem_map, List.getElem_range]
      exact (List.getD_eq_getElem files [] h1).symm
  | cons m rest ih =>
    intro n files hf
    have h5 : 0 < NUM_BYTECODE_FILES := by decide
    have hlen : n % NUM_BYTECODE_FILES < files.length := by
      rw [hf]; exact Nat.mod_lt _ h5
    have hmod : (n % NUM_BYTECODE_FILES + 1) % NUM_BYTECODE_FILES
        = (n + 1) % NUM_BYTECODE_FILES := by
      show (n % 5 + 1) % 5 = (n + 1) % 5
      omega
    rw [show write_bytecode_loop (n % NUM_BYTECODE_FILES) (m :: rest) files
        = write_bytecode_loop ((n % NUM_BYTECODE_FILES + 1) % NUM_BYTECODE_FILES) rest
            (files.set (n % NUM_BYTECODE_FILES)
              (files.getD (n % NUM_BYTECODE_FILES) [] ++ [m])) from rfl]
    rw [hmod, ih (n + 1) _ (by rw [List.length_set]; exact hf)]
    apply List.map_eq_map_iff.mpr
    intro j hj
    rw [show ((m :: rest).enumFrom n) = (n, m) :: rest.enumFrom (n + 1) from rfl,
      List.filter_cons]
    by_cases hc : n % NUM_BYTECODE_FILES = j
    · have h1 : (files.set (n % NUM_BYTECODE_FILES)
          (files.getD (n % NUM_BYTECODE_FILES) [] ++ [m])).getD j [] =
          files.getD j [] ++ [m] := by
        rw [List.getD_eq_getElem?_getD, ← hc, List.getElem?_set_self hlen]
        rfl
      have h2 : ((n, m).1 % NUM_BYTECODE_FILES == j) = true := by simp [hc]
      rw [h1, h2]
      simp [List.append_assoc]
    · have h1 : (files.set (n % NUM_BYTECODE_FILES)
          (files.getD (n % NUM_BYTECODE_FILES) [] ++ [m])).getD j [] =
          files.getD j [] := by
        rw [List.getD_eq_getElem?_getD, List.getElem?_set_ne hc,
          ← List.getD_eq_getElem?_getD]
      have h2 : ((n, m).1 % NUM_BYTECODE_FILES == j) = false := by simp [hc]
      rw [h1, h2]
      simp

/-- Freezer.write_bytecode sends the record with catalog index i to
shard i mod NUM_BYTECODE_FILES: shard j holds exactly the records whose
catalog index is congruent to j, in catalog order. -/
theorem write_bytecode_char (mods : List FrozenModule) :
    write_bytecode mods =
      (List.range NUM_BYTECODE_FILES).map (fun j =>
        ((mods.enum).filter
          (fun p => p.1 % NUM_BYTECODE_FILES == j)).map Prod.snd) := by
  have h := write_bytecode_loop_char mods 0 (List.replicate NUM_BYTECODE_FILES [])
    (by simp)
  rw [show (0 : Nat) % NUM_BYTECODE_FILES = 0 from rfl] at h
  rw [show write_bytecode mods
      = write_bytecode_loop 0 mods (List.replicate NUM_BYTECODE_FILES []) from rfl, h]
  apply List.map_eq_map_iff.mpr
  intro j hj
  rw [show (List.replicate NUM_BYTECODE_FILES ([] : List FrozenModule)).getD j [] = []
      from by rcases j with _|_|_|_|_|j <;> rfl]
  rw [List.nil_append]
  rfl

/-- Length of a filter on the index of an indexed list, as a count over
the indices. -/
theorem length_filter_fst (j : Nat) (l : List (Nat × FrozenModule)) :
    (l.filter (fun p => p.1 % NUM_BYTECODE_FILES == j)).length
      = (l.map Prod.fst).countP (fun i => i % NUM_BYTECODE_FILES == j) := by
  induction l with
  | nil => rfl
  | cons a t ih =>
    cases hq : (a.1 % NUM_BYTECODE_FILES == j) <;>
      simp [List.filter_cons, List.countP_cons, hq, ih]

/-- How many indices below N are congruent to j modulo the shard
count. -/
theorem count_mod_range (N j : Nat) (hj : j < NUM_BYTECODE_FILES) :
    (List.range N).countP (fun i => i % NUM_BYTECODE_FILES == j)
      = N / NUM_BYTECODE_FILES
        + (if j < N % NUM_BYTECODE_FILES then 1 else 0) := by
  induction N with
  | zero => simp
  | succ n ih =>
    rw [List.range_succ, List.countP_append, ih]
    have hsing : List.countP (fun i => i % NUM_BYTECODE_FILES == j) [n]
        = if n % NUM_BYTECODE_FILES = j then 1 else 0 := by
      simp [List.countP_cons, beq_iff_eq]
    rw [hsing]
    simp only [NUM_BYTECODE_FILES] at *
    split_ifs <;> omega

/-- Shard j of write_bytecode, directly. -/
theorem write_bytecode_getD (mods : List FrozenModule) (j : Nat)
    (hj : j < NUM_BYTECODE_FILES) :
    (write_bytecode mods).getD j [] =
      ((mods.enum).filter (fun p => p.1 % NUM_BYTECODE_FILES == j)).map Prod.snd := by
  rw [write_bytecode_char, List.getD_eq_getElem?_getD]
  simp [List.getElem?_map, List.getElem?_range, hj]

/-- Each shard receives the records of the indices congruent to it:
its length is the count of such indices. -/
theorem shard_length (mods : List FrozenModule) (j : Nat)
    (hj : j < NUM_BYTECODE_FILES) :
    ((write_bytecode mods).getD j []).length =
      mods.length / NUM_BYTECODE_FILES
        + (if j < mods.length % NUM_BYTECODE_FILES then 1 else 0) := by
  rw [write_bytecode_getD mods j hj, List.length_map, length_filter_fst,
    List.enum_map_fst, count_mod_range mods.length j hj]

/-- The shards together hold exactly as many records as the catalog. -/
theorem shard_sum (mods : List FrozenModule) :
    ((write_bytecode mods).map List.length).sum = mods.length := by
  have key : ∀ j, j < NUM_BYTECODE_FILES →
      (((mods.enum).filter (fun p => p.1 % NUM_BYTECODE_FILES == j)).map Prod.snd).length
        = mods.length / NUM_BYTECODE_FILES
          + (if j < mods.length % NUM_BYTECODE_FILES then 1 else 0) := by
    intro j hj
    rw [List.length_map, length_filter_fst, List.enum_map_fst,
      count_mod_range mods.length j hj]
  rw [write_bytecode_char]
  rw [show List.range NUM_BYTECODE_FILES = [0, 1, 2, 3, 4] from rfl]
  simp only [List.map_cons, List.map_nil, List.sum_cons, List.sum_nil]
  rw [key 0 (by decide), key 1 (by decide), key 2 (by decide), key 3 (by decide),
    key 4 (by decide)]
  simp only [NUM_BYTECODE_FILES]
  split_ifs <;> omega

/-- The record with catalog index i is a member of shard i mod the
shard count. -/
theorem shard_mem (mods : List FrozenModule) (i : Nat) (hi : i < mods.length)
    (d : FrozenModule) :
    mods.getD i d ∈ (write_bytecode mods).getD (i % NUM_BYTECODE_FILES) [] := by
  rw [write_bytecode_getD mods _ (Nat.mod_lt _ (by decide))]
  refine List.mem_map.mpr ⟨(i, mods.getD i d), ?_, rfl⟩
  refine List.mem_filter.mpr ⟨?_, by simp⟩
  have h3 : mods.getD i d = mods[i] := List.getD_eq_getElem mods d hi
  have h4 : mods.enum[i]? = some (i, mods.getD i d) := by
    rw [List.getElem?_enum, List.getElem?_eq_getElem hi, h3]
    rfl
  exact List.getElem?_mem h4

/-! ### Indent counter -/

/-- A compile_path call that returns normally restores the indent
counter. -/
theorem compile_path_indent (c : Compiler) (pre : List String) (st : FreezerState)
    (e : Entry) (st' : FreezerState) (h : compile_path c pre st e = .ok st') :
    st'.indent = st.indent := by
  by_cases hall : allOk c (accepted_path pre e)
  · rw [compile_path_ok c pre st e hall] at h
    injection h with h2
    subst h2
    rfl
  · obtain ⟨msg, hmsg⟩ := compile_path_err c pre st e hall
    rw [hmsg] at h
    exact Except.noConfusion h

/-- A full driver loop that returns normally ends with the indent
counter back at 0. -/
theorem run_roots_indent (c : Compiler) (roots : List Entry) (st' : FreezerState)
    (h : run_roots c ⟨[], 0⟩ roots = .ok st') : st'.indent = 0 := by
  by_cases hall : allOk c (accepted_run roots)
  · rw [run_roots_ok c roots ⟨[], 0⟩ hall] at h
    injection h with h2
    subst h2
    rfl
  · obtain ⟨msg, hmsg⟩ := run_roots_err c roots ⟨[], 0⟩ hall
    rw [hmsg] at h
    exact Except.noConfusion h

/-! ### Manifest lemmas -/

/-- Manifest row i, for i within the catalog, is the row of catalog
record i. -/
theorem main_table_getElem (mods : List FrozenModule) (oss : Bool) (i : Nat)
    (hi : i < mods.length) :
    ((write_main mods oss).2.1)[i]? = (mods[i]?).map mkEntry := by
  show (mods.map mkEntry ++ [sentinelEntry])[i]? = _
  rw [List.getElem?_append, if_pos (by simpa using hi), List.getElem?_map]

/-- The manifest row just past the catalog is the sentinel. -/
theorem main_table_sentinel (mods : List FrozenModule) (oss : Bool) :
    ((write_main mods oss).2.1)[mods.length]? = some sentinelEntry := by
  show (mods.map mkEntry ++ [sentinelEntry])[mods.length]? = _
  rw [List.getElem?_append_right (by simp)]
  simp

/-- A catalog row of the manifest is never all-null. -/
theorem mkEntry_not_null (m : FrozenModule) : isNullEntry (mkEntry m) = false := by
  simp [isNullEntry, mkEntry]

/-! ### Concrete objects used for witnesses and counterexamples -/

/-- A compiler that always succeeds with a one-byte blob. -/
def trivialCompiler : Compiler := fun _ _ => .ok [0]

/-- A sample catalog record. -/
def sampleMod : FrozenModule := ⟨"m", "M_m", 3, [1, 2, 3]⟩

/-- The package tree pkg/__init__.py, pkg/sub/__init__.py,
pkg/sub/leaf.py, listed in that order. -/
def pkgTree : Entry :=
  .dir "pkg" (.cons (.file "__init__.py" "")
    (.cons (.dir "sub" (.cons (.file "__init__.py" "")
      (.cons (.file "leaf.py" "") .nil))) .nil))

/-- The catalog produced by compiling pkgTree with trivialCompiler. -/
def pkgCatalog : List FrozenModule :=
  [⟨"pkg", "M_pkg", -1, [0]⟩, ⟨"pkg.sub", "M_pkg__sub", -1, [0]⟩,
   ⟨"pkg.sub.leaf", "M_pkg__sub__leaf", 1, [0]⟩]

/-- A package directory whose directory iteration yields children in
non-lexicographic order: b.py before a.py before __init__.py. -/
def unsortedTree : Entry :=
  .dir "pkg" (.cons (.file "b.py" "") (.cons (.file "a.py" "")
    (.cons (.file "__init__.py" "") .nil)))

/-- A package containing both a submodule a.py and a subpackage a/. -/
def collideTree : Entry :=
  .dir "pkg" (.cons (.file "__init__.py" "")
    (.cons (.dir "a" (.cons (.file "__init__.py" "") .nil))
      (.cons (.file "a.py" "") .nil)))

/-- The catalog of a traversal result, empty on error. -/
def catalogOf (r : Except String FreezerState) : List FrozenModule :=
  match r with
  | .ok st => st.frozen_modules
  | .error _ => []

/-- The same package content as unsortedTree but with the directory
iteration yielding the children in lexicographic order. -/
def sortedListTree : Entry :=
  .dir "pkg" (.cons (.file "__init__.py" "") (.cons (.file "a.py" "")
    (.cons (.file "b.py" "") .nil)))

/-! ### Claims -/

/-- C1: the claim says compile_package visits the children of an
accepted package directory in a deterministic total order such as
lexicographic by name.  The code iterates path.iterdir() without
sorting, so the catalog order follows the raw directory iteration
order: the same package content listed as b.py, a.py, __init__.py
yields catalog order pkg.b, pkg.a, pkg, while the lexicographically
listed tree yields pkg, pkg.a, pkg.b — different artifacts from
identical tree content, contradicting the claim (the top-level driver
sorts precisely for this reason, compile_package does not). -/
theorem claim_C1_iterdir_order :
    (catalogOf (compile_path trivialCompiler [] ⟨[], 0⟩ unsortedTree)).map
        FrozenModule.module_name = ["pkg.b", "pkg.a", "pkg"]
    ∧ (catalogOf (compile_path trivialCompiler [] ⟨[], 0⟩ sortedListTree)).map
        FrozenModule.module_name = ["pkg", "pkg.a", "pkg.b"]
    ∧ (["pkg.b", "pkg.a", "pkg"] : List String) ≠ ["pkg", "pkg.a", "pkg.b"] :=
  ⟨rfl, rfl, by decide⟩

/-- C2: provided every accepted file compiles, the run succeeds and the
catalog holds exactly one record per accepted file, in traversal order;
shard j of write_bytecode holds exactly the records whose catalog index
is congruent to j, the shards together hold exactly the catalog's
records, and the manifest table holds exactly one row per record in
catalog order (plus the trailing sentinel). -/
theorem claim_C2_exactly_once (c : Compiler) (roots : List Entry) (oss : Bool)
    (h : allOk c (accepted_run roots)) :
    ∃ st : FreezerState,
      run_roots c ⟨[], 0⟩ roots = .ok st
      ∧ st.frozen_modules = (accepted_run roots).map (fun f => recordOf c f.1 f.2)
      ∧ write_bytecode st.frozen_modules =
          (List.range NUM_BYTECODE_FILES).map (fun j =>
            ((st.frozen_modules.enum).filter
              (fun p => p.1 % NUM_BYTECODE_FILES == j)).map Prod.snd)
      ∧ ((write_bytecode st.frozen_modules).map List.length).sum
          = st.frozen_modules.length
      ∧ (∀ i, i < st.frozen_modules.length →
          ((write_main st.frozen_modules oss).2.1)[i]?
            = (st.frozen_modules[i]?).map mkEntry)
      ∧ ((write_main st.frozen_modules oss).2.1).length
          = st.frozen_modules.length + 1 := by
  refine ⟨⟨(accepted_run roots).map (fun f => recordOf c f.1 f.2), 0⟩, ?_, rfl,
    write_bytecode_char _, shard_sum _,
    fun i hi => main_table_getElem _ oss i hi, by simp [write_main]⟩
  have := run_roots_ok c roots ⟨[], 0⟩ h
  simpa using this

/-- C2 witness at a concrete tree and compiler. -/
theorem claim_C2_witness :
    ∃ st : FreezerState,
      run_roots trivialCompiler ⟨[], 0⟩ [pkgTree] = .ok st
      ∧ st.frozen_modules =
          (accepted_run [pkgTree]).map (fun f => recordOf trivialCompiler f.1 f.2)
      ∧ write_bytecode st.frozen_modules =
          (List.range NUM_BYTECODE_FILES).map (fun j =>
            ((st.frozen_modules.enum).filter
              (fun p => p.1 % NUM_BYTECODE_FILES == j)).map Prod.snd)
      ∧ ((write_bytecode st.frozen_modules).map List.length).sum
          = st.frozen_modules.length
      ∧ (∀ i, i < st.frozen_modules.length →
          ((write_main st.frozen_modules false).2.1)[i]?
            = (st.frozen_modules[i]?).map mkEntry)
      ∧ ((write_main st.frozen_modules false).2.1).length
          = st.frozen_modules.length + 1 :=
  claim_C2_exactly_once trivialCompiler [pkgTree] false (fun _ _ => rfl)

/-- C3: for an accepted package marker file the qualified name is the
containing directory's segments; for any other accepted file it is the
relative path's segments with the suffix stripped; on the tree
pkg/__init__.py, pkg/sub/__init__.py, pkg/sub/leaf.py the produced
names are exactly pkg, pkg.sub, pkg.sub.leaf. -/
theorem claim_C3_qualnames (dirSegs : List String) (n : String) :
    (dirSegs ≠ [] → get_module_qualname (dirSegs ++ ["__init__.py"]) = dirSegs)
    ∧ (n ≠ "__init__.py" →
        get_module_qualname (dirSegs ++ [n]) = dirSegs ++ [pyStem n])
    ∧ (catalogOf (compile_path trivialCompiler [] ⟨[], 0⟩ pkgTree)).map
        FrozenModule.module_name = ["pkg", "pkg.sub", "pkg.sub.leaf"] :=
  ⟨qual_marker dirSegs, qual_plain dirSegs n, rfl⟩

/-- C3 witness at concrete segments. -/
theorem claim_C3_witness :
    (["pkg", "sub"] : List String) ≠ []
    ∧ get_module_qualname (["pkg", "sub"] ++ ["__init__.py"]) = ["pkg", "sub"]
    ∧ ("leaf.py" : String) ≠ "__init__.py"
    ∧ get_module_qualname (["pkg", "sub"] ++ ["leaf.py"])
        = ["pkg", "sub"] ++ [pyStem "leaf.py"] :=
  ⟨by decide, (claim_C3_qualnames ["pkg", "sub"] "leaf.py").1 (by decide), by decide,
   (claim_C3_qualnames ["pkg", "sub"] "leaf.py").2.1 (by decide)⟩

/-- C4 counterexample: the naming pipeline is not injective.  In the
tree pkg/__init__.py, pkg/a/__init__.py, pkg/a.py all three files are
accepted and pairwise distinct, yet pkg/a/__init__.py and pkg/a.py both
receive qualified name pkg.a and symbol M_pkg__a. -/
theorem claim_C4_counterexample :
    accepted_path [] collideTree =
      [(["pkg", "__init__.py"], ""), (["pkg", "a", "__init__.py"], ""),
       (["pkg", "a.py"], "")]
    ∧ (accepted_path [] collideTree).Nodup
    ∧ (catalogOf (compile_path trivialCompiler [] ⟨[], 0⟩ collideTree)).map
        FrozenModule.c_name = ["M_pkg", "M_pkg__a", "M_pkg__a"]
    ∧ (catalogOf (compile_path trivialCompiler [] ⟨[], 0⟩ collideTree)).map
        FrozenModule.module_name = ["pkg", "pkg.a", "pkg.a"]
    ∧ ¬ (["M_pkg", "M_pkg__a", "M_pkg__a"] : List String).Nodup :=
  ⟨rfl, by decide, rfl, rfl, by decide⟩

/-- C4 (amended): distinct accepted files that are children of the same
directory always receive distinct qualified names and distinct symbol
names; across directories the mapping can collide. -/
theorem claim_C4_amended (pre : List String) (hpre : pre ≠ []) (n1 n2 : String)
    (hne : n1 ≠ n2) (h1 : pySuffix n1 = ".py") (h2 : pySuffix n2 = ".py") :
    get_module_qualname (pre ++ [n1]) ≠ get_module_qualname (pre ++ [n2])
    ∧ "M_" ++ mangle (get_module_qualname (pre ++ [n1]))
        ≠ "M_" ++ mangle (get_module_qualname (pre ++ [n2])) := by
  by_cases hm1 : n1 = "__init__.py" <;> by_cases hm2 : n2 = "__init__.py"
  · exact absurd (hm1.trans hm2.symm) hne
  · subst hm1
    rw [qual_marker pre hpre, qual_plain pre n2 hm2]
    constructor
    · intro heq
      have := congrArg List.length heq
      simp at this
    · intro heq
      rw [mangle_concat pre hpre] at heq
      have hl := congrArg String.length heq
      simp only [String.length_append] at hl
      have h2l : ("__" : String).length = 2 := rfl
      omega
  · subst hm2
    rw [qual_marker pre hpre, qual_plain pre n1 hm1]
    constructor
    · intro heq
      have := congrArg List.length heq
      simp at this
    · intro heq
      rw [mangle_concat pre hpre] at heq
      have hl := congrArg String.length heq
      simp only [String.length_append] at hl
      have h2l : ("__" : String).length = 2 := rfl
      omega
  · rw [qual_plain pre n1 hm1, qual_plain pre n2 hm2]
    have hstem := stem_inj n1 n2 h1 h2 hne
    constructor
    · intro heq
      have h3 := List.append_cancel_left heq
      injection h3 with h4
      exact hstem h4
    · intro heq
      rw [mangle_concat pre hpre, mangle_concat pre hpre] at heq
      have h3 := str_append_cancel_left "M_" _ _ heq
      have h4 := str_append_cancel_left (mangle pre ++ "__") _ _ h3
      exact hstem h4

/-- C4 witness: two sibling plain modules get distinct names and
symbols. -/
theorem claim_C4_witness :
    (["pkg"] : List String) ≠ []
    ∧ ("a.py" : String) ≠ "b.py"
    ∧ pySuffix "a.py" = ".py"
    ∧ (get_module_qualname (["pkg"] ++ ["a.py"])
         ≠ get_module_qualname (["pkg"] ++ ["b.py"])
       ∧ "M_" ++ mangle (get_module_qualname (["pkg"] ++ ["a.py"]))
           ≠ "M_" ++ mangle (get_module_qualname (["pkg"] ++ ["b.py"]))) :=
  ⟨by decide, by decide, by decide,
   claim_C4_amended ["pkg"] (by decide) "a.py" "b.py" (by decide) (by decide)
     (by decide)⟩

/-- C5: the record appended by compile_file for an accepted file
carries a size whose magnitude is exactly the blob length, strictly
negative for the package marker file (whenever the external compiler
produces a nonempty blob, as the real one always does), and
non-negative for every other file. -/
theorem claim_C5_size_sign (c : Compiler) (pre : List String) (n content : String)
    (st : FreezerState) (b : List Nat)
    (hs : pySuffix n = ".py") (hd : n ∉ DENY_LIST)
    (hc : c content (pre ++ [n]) = .ok b) :
    ∃ r : FrozenModule,
      compile_file c pre n content st = .ok ⟨st.frozen_modules ++ [r], st.indent⟩
      ∧ r.bytecode = b
      ∧ r.size.natAbs = r.bytecode.length
      ∧ (n = "__init__.py" → 0 < b.length → r.size < 0)
      ∧ (n ≠ "__init__.py" → 0 ≤ r.size) := by
  refine ⟨recordOf c (pre ++ [n]) content, ?_, ?_, ?_, ?_, ?_⟩
  · have hall : allOk c (accepted_path pre (.file n content)) := by
      intro f hf
      simp [accepted_path, hs, hd] at hf
      rw [hf, hc]
      rfl
    have hfile := compile_file_ok c pre n content st hall
    simpa [accepted_path, hs, hd] using hfile
  · simp [recordOf, okBytes, hc]
  · simp only [recordOf, okBytes, hc, lastNameD_concat]
    split_ifs <;> simp
  · intro hn hlen
    simp only [recordOf, okBytes, hc, lastNameD_concat, if_pos hn]
    omega
  · intro hn
    simp only [recordOf, okBytes, hc, lastNameD_concat, if_neg hn]
    omega

/-- C5 witness at a concrete marker file. -/
theorem claim_C5_witness :
    pySuffix "__init__.py" = ".py"
    ∧ "__init__.py" ∉ DENY_LIST
    ∧ ∃ r : FrozenModule,
        compile_file trivialCompiler ["pkg"] "__init__.py" "" ⟨[], 0⟩
          = .ok ⟨[] ++ [r], 0⟩
        ∧ r.bytecode = [0]
        ∧ r.size.natAbs = r.bytecode.length
        ∧ ("__init__.py" = "__init__.py" → 0 < [0].length → r.size < 0)
        ∧ ("__init__.py" ≠ "__init__.py" → 0 ≤ r.size) :=
  ⟨by decide, by decide,
   claim_C5_size_sign trivialCompiler ["pkg"] "__init__.py" "" ⟨[], 0⟩ [0]
     (by decide) (by decide) rfl⟩

/-- C6: a directory is treated as a package directory iff it directly
contains an entry named __init__.py; without the marker the call
returns with the state unchanged — zero catalog entries and no
descendant visited; with the marker (and a non-deny-listed name) the
accepted files are exactly those of its children and the traversal
recurses into them. -/
theorem claim_C6_marker_gate (c : Compiler) (pre : List String) (n : String)
    (children : EntryList) (st : FreezerState) :
    (hasInitMarker children = false →
      compile_path c pre st (.dir n children) = .ok st
      ∧ accepted_path pre (.dir n children) = [])
    ∧ (hasInitMarker children = true → n ∉ DENY_LIST →
      accepted_path pre (.dir n children) = accepted_children (pre ++ [n]) children
      ∧ (allOk c (accepted_children (pre ++ [n]) children) →
        compile_path c pre st (.dir n children) =
          .ok ⟨st.frozen_modules ++
                (accepted_children (pre ++ [n]) children).map
                  (fun f => recordOf c f.1 f.2), st.indent⟩)) := by
  constructor
  · intro hm
    constructor
    · by_cases hd : n ∈ DENY_LIST
      · simp [compile_path, indentWrap, hd]
      · simp [compile_path, indentWrap, hd, hm]
    · by_cases hd : n ∈ DENY_LIST <;> simp [accepted_path, hd, hm]
  · intro hm hd
    have hacc : accepted_path pre (.dir n children)
        = accepted_children (pre ++ [n]) children := by
      simp [accepted_path, hd, hm]
    refine ⟨hacc, fun hall => ?_⟩
    have := compile_path_ok c pre st (.dir n children) (by rw [hacc]; exact hall)
    rw [hacc] at this
    exact this

/-- C6 witness at a concrete marker-free directory. -/
theorem claim_C6_witness :
    hasInitMarker (.cons (.file "mod.py" "x") .nil) = false
    ∧ compile_path trivialCompiler [] ⟨[], 0⟩
        (.dir "plain" (.cons (.file "mod.py" "x") .nil)) = .ok ⟨[], 0⟩
    ∧ accepted_path [] (.dir "plain" (.cons (.file "mod.py" "x") .nil)) = [] :=
  ⟨rfl,
   ((claim_C6_marker_gate trivialCompiler [] "plain"
      (.cons (.file "mod.py" "x") .nil) ⟨[], 0⟩).1 rfl).1,
   ((claim_C6_marker_gate trivialCompiler [] "plain"
      (.cons (.file "mod.py" "x") .nil) ⟨[], 0⟩).1 rfl).2⟩

/-- C7: write_bytecode is round-robin: shard j holds exactly the
records whose 0-indexed catalog position is congruent to j modulo
NUM_BYTECODE_FILES, record i lands in shard i mod NUM_BYTECODE_FILES,
and each shard receives floor(N/K) records plus one more exactly when
j < N mod K — hence either floor(N/K) or ceil(N/K). -/
theorem claim_C7_round_robin (mods : List FrozenModule) (j : Nat)
    (hj : j < NUM_BYTECODE_FILES) :
    (write_bytecode mods).getD j [] =
      ((mods.enum).filter (fun p => p.1 % NUM_BYTECODE_FILES == j)).map Prod.snd
    ∧ (∀ i, i < mods.length →
        mods.getD i sampleMod ∈ (write_bytecode mods).getD (i % NUM_BYTECODE_FILES) [])
    ∧ ((write_bytecode mods).getD j []).length
        = mods.length / NUM_BYTECODE_FILES
          + (if j < mods.length % NUM_BYTECODE_FILES then 1 else 0)
    ∧ (((write_bytecode mods).getD j []).length = mods.length / NUM_BYTECODE_FILES
       ∨ ((write_bytecode mods).getD j []).length
           = (mods.length + NUM_BYTECODE_FILES - 1) / NUM_BYTECODE_FILES) := by
  refine ⟨write_bytecode_getD mods j hj, fun i hi => shard_mem mods i hi sampleMod,
    shard_length mods j hj, ?_⟩
  rw [shard_length mods j hj]
  simp only [NUM_BYTECODE_FILES] at *
  split_ifs <;> omega

/-- C7 witness at a concrete one-record catalog. -/
theorem claim_C7_witness :
    (0 : Nat) < NUM_BYTECODE_FILES
    ∧ (write_bytecode [sampleMod]).getD 0 []
        = (([sampleMod].enum).filter
            (fun p => p.1 % NUM_BYTECODE_FILES == 0)).map Prod.snd
    ∧ (write_bytecode [sampleMod]).getD 0 [] = [sampleMod] :=
  ⟨by decide, (claim_C7_round_robin [sampleMod] 0 (by decide)).1, by rfl⟩

/-- C8: the manifest table has one row per catalog record, in catalog
order, followed by the sentinel as its final row; a row is all-null
exactly when it is that final sentinel row. -/
theorem claim_C8_sentinel (mods : List FrozenModule) (oss : Bool) :
    ((write_main mods oss).2.1).length = mods.length + 1
    ∧ (∀ i, i < mods.length →
        ((write_main mods oss).2.1)[i]? = (mods[i]?).map mkEntry)
    ∧ ((write_main mods oss).2.1)[mods.length]? = some sentinelEntry
    ∧ (∀ i e, ((write_main mods oss).2.1)[i]? = some e →
        (isNullEntry e = true ↔ i = mods.length)) := by
  refine ⟨by simp [write_main], fun i hi => main_table_getElem mods oss i hi,
    main_table_sentinel mods oss, ?_⟩
  intro i e he
  rcases Nat.lt_trichotomy i mods.length with hlt | heq | hgt
  · rw [main_table_getElem mods oss i hlt, List.getElem?_eq_getElem hlt] at he
    injection he with he2
    constructor
    · intro hnull
      rw [← he2, mkEntry_not_null] at hnull
      exact absurd hnull (by simp)
    · intro h'
      omega
  · subst heq
    rw [main_table_sentinel mods oss] at he
    injection he with he2
    simp [← he2, isNullEntry, sentinelEntry]
  · have hlen : ((write_main mods oss).2.1).length = mods.length + 1 := by
      simp [write_main]
    rw [List.getElem?_eq_none (by omega)] at he
    exact Option.noConfusion he

/-- C8 witness at a concrete one-record catalog. -/
theorem claim_C8_witness :
    ((write_main [sampleMod] true).2.1).length = 2
    ∧ ((write_main [sampleMod] true).2.1)[0]?
        = (([sampleMod] : List FrozenModule)[0]?).map mkEntry
    ∧ ((write_main [sampleMod] true).2.1)[1]? = some sentinelEntry :=
  ⟨(claim_C8_sentinel [sampleMod] true).1,
   (claim_C8_sentinel [sampleMod] true).2.1 0 (by decide),
   (claim_C8_sentinel [sampleMod] true).2.2.1⟩

/-- C9: if any accepted file of the run fails external compilation, the
whole run aborts with the error before any emission stage: freeze_run
produces no shard contents and no manifest. -/
theorem claim_C9_fatal (c : Compiler) (roots : List Entry) (oss : Bool)
    (h : ∃ f ∈ accepted_run roots, (c f.2 f.1).isOk = false) :
    (∃ msg, freeze_run c roots oss = .error msg)
    ∧ ∀ out, freeze_run c roots oss ≠ .ok out := by
  have hnot : ¬ allOk c (accepted_run roots) := by
    obtain ⟨f, hf, hfail⟩ := h
    intro hall
    have hh := hall f hf
    rw [hfail] at hh
    exact absurd hh (by simp)
  obtain ⟨msg, hmsg⟩ := run_roots_err c roots ⟨[], 0⟩ hnot
  have hrun : freeze_run c roots oss = .error msg := by
    simp [freeze_run, hmsg]
  exact ⟨⟨msg, hrun⟩, fun out hout => Except.noConfusion (hrun ▸ hout)⟩

/-- A compiler that always fails, as on a syntax error. -/
def failCompiler : Compiler := fun _ _ => .error "syntax error"

/-- C9 witness at a concrete tree with a failing file. -/
theorem claim_C9_witness :
    (∃ msg, freeze_run failCompiler [pkgTree] true = .error msg)
    ∧ ∀ out, freeze_run failCompiler [pkgTree] true ≠ .ok out :=
  claim_C9_fatal failCompiler [pkgTree] true
    ⟨(["pkg", "__init__.py"], ""), by decide, rfl⟩

/-- C10: compile_file, compile_package and compile_path calls that
return normally leave the indent counter as they found it, and a
completed driver loop ends with the indent counter back at 0. -/
theorem claim_C10_indent :
    (∀ (c : Compiler) (pre : List String) (n content : String)
        (st st' : FreezerState),
      compile_file c pre n content st = .ok st' → st'.indent = st.indent)
    ∧ (∀ (c : Compiler) (pre : List String) (n : String) (children : EntryList)
        (st st' : FreezerState),
      compile_package c pre n children st = .ok st' → st'.indent = st.indent)
    ∧ (∀ (c : Compiler) (pre : List String) (st : FreezerState) (e : Entry)
        (st' : FreezerState),
      compile_path c pre st e = .ok st' → st'.indent = st.indent)
    ∧ (∀ (c : Compiler) (roots : List Entry) (st' : FreezerState),
      run_roots c ⟨[], 0⟩ roots = .ok st' → st'.indent = 0) := by
  refine ⟨?_, ?_, fun c pre st e st' h => compile_path_indent c pre st e st' h,
    fun c roots st' h => run_roots_indent c roots st' h⟩
  · intro c pre n content st st' h
    exact compile_path_indent c pre st (.file n content) st' h
  · intro c pre n children st st' h
    refine compile_path_indent c pre st (.dir n children) st' ?_
    rw [compile_path_dir]
    exact h

/-- C10 witness at a concrete tree. -/
theorem claim_C10_witness :
    compile_path trivialCompiler [] ⟨[], 0⟩ pkgTree = .ok ⟨pkgCatalog, 0⟩
    ∧ (⟨pkgCatalog, 0⟩ : FreezerState).indent = 0 :=
  ⟨by rfl,
   claim_C10_indent.2.2.1 trivialCompiler [] ⟨[], 0⟩ pkgTree ⟨pkgCatalog, 0⟩
     (by rfl)⟩

end Freeze
